import Mathlib

/-!
Verification of the Wikipedia-Link-Highlighter userscripts.

The repository is a family of Tampermonkey userscripts that extract candidate
terms from a Wikipedia article, verify them against the MediaWiki API and
decorate verified, unlinked occurrences.  This file gives a shallow embedding
of the pure cores of those scripts and settles the behavioural claims of the
specification against them:

* the overlap-filtering match selector of `highlightTextNode`
  (`TS14(imp).js` lines 396-409, identical in `part_002`);
* the tree-walker filter and text-node rewriting of `highlightInParagraph`
  (`TS14(imp).js` lines 350-374);
* the persisted verification cache of `TS14(imp).js`
  (`loadCache` / `checkPagesExist` / `cleanCache`);
* the redirect handling of `part_005`;
* the batch verification loop of `TS13.js` (`analyzeText` /
  `checkWikipediaPages`);
* the rate limiter `canMakeRequest` of `TS14(imp).js` and its two callers;
* the exclusion filters (`shouldExclude` of `part_002` and of `TS14(imp).js`,
  the dedup filter of `TS13.js`);
* the once-per-document highlighting pass of `part_005`;
* the capped highlighters (the fallback `highlightTerms` of `TS13.js` and
  the TS8 `highlightTerms` of `part_003`);
* the candidate collection of `part_000` (TS 5).
-/

/- ## Definitions -/

/- ### Generic helpers -/

/-- Splitting a list into consecutive chunks of `n` elements, the model of the
JS pattern `for (let i = 0; i < xs.length; i += n) xs.slice(i, i + n)` used by
every batch loop in the scripts. -/
def chunksOfF (n : Nat) : Nat → List α → List (List α)
  | _, [] => []
  | 0, a :: t => [a :: t]
  | fuel + 1, a :: t =>
    if n = 0 then [a :: t]
    else (a :: t).take n :: chunksOfF n fuel ((a :: t).drop n)

/-- The batch splitter proper, with enough fuel for the whole list. -/
def chunksOf (n : Nat) (l : List α) : List (List α) :=
  chunksOfF n l.length l

/-- Insertion-order, duplicate-free accumulation: the model of
`jsSet.add(x)` on a JavaScript `Set`. -/
def setAdd (l : List String) (x : String) : List String :=
  if x ∈ l then l else l ++ [x]

/-- Contiguous-sublist test on character lists. -/
def listInfix (sub : List Char) : List Char → Bool
  | [] => sub.isEmpty
  | c :: t => sub.isPrefixOf (c :: t) || listInfix sub t

/-- The model of `String.prototype.includes`: `sub` occurs as a contiguous
substring of `s`. -/
def jsIncludes (s sub : String) : Bool :=
  listInfix sub.data s.data

/-- A JS word character for `\b` purposes: `[A-Za-z0-9_]`. -/
def isWordChar (c : Char) : Bool :=
  c.isAlphanum || c == '_'

/-- Whether there is a `\b` word boundary between an optional left character
and an optional right character (both ends of the string count as non-word
positions, exactly as in JS regexes). -/
def wordBoundary (l r : Option Char) : Bool :=
  (match l with | none => false | some c => isWordChar c)
    != (match r with | none => false | some c => isWordChar c)

/-- `String` slice of the half-open character range `[a, b)`, the model of
`text.substring(a, b)` / `text.slice(a, b)` for in-range indices. -/
def sliceStr (text : List Char) (a b : Nat) : String :=
  String.mk ((text.drop a).take (b - a))

/-- Test for `/^\d+$/`: a non-empty all-digit token. -/
def isPureNumber (w : String) : Bool :=
  !w.data.isEmpty && w.data.all Char.isDigit

/-- The model of `String.prototype.toLowerCase`: case-fold every
character. -/
def lowerStr (s : String) : String :=
  String.mk (s.data.map Char.toLower)

/-- The model of `String.prototype.trim`: strip leading and trailing
whitespace. -/
def trimStr (s : String) : String :=
  String.mk
    (((s.data.dropWhile (fun c => c.isWhitespace)).reverse.dropWhile
      (fun c => c.isWhitespace)).reverse)

/- ### C1 : the overlap-filtering match selector (`highlightTextNode`)

`TS14(imp).js` lines 396-409 (identically `part_002` lines 319-332):

    matches.sort((a, b) => a.start - b.start);
    const validMatches = [];
    for (const match of matches) {
      const overlaps = validMatches.some(m =>
        (match.start >= m.start && match.start < m.end) ||
        (match.end > m.start && match.end <= m.end)
      );
      if (!overlaps) validMatches.push(match);
    }
-/

/-- A candidate match inside one text node: a half-open character range.
`stop` models the source field `end` (a Lean keyword). -/
structure MatchSpan where
  start : Nat
  stop : Nat
deriving Repr, DecidableEq

/-- The `overlaps` test of the source, literally: the new match `m` is held to
overlap an accepted match `v` when
`(m.start >= v.start && m.start < v.end) || (m.end > v.start && m.end <= v.end)`. -/
def overlapsJS (m v : MatchSpan) : Bool :=
  (decide (v.start ≤ m.start) && decide (m.start < v.stop)) ||
    (decide (v.start < m.stop) && decide (m.stop ≤ v.stop))

/-- The acceptance loop: scan the (sorted) matches left to right and keep a
match only when the `overlaps` test fails against every already-kept match. -/
def acceptMatches (ms : List MatchSpan) : List MatchSpan :=
  ms.foldl (fun valid m => if valid.any (fun v => overlapsJS m v) then valid else valid ++ [m]) []

/-- Stable insertion by `start`, the model of
`matches.sort((a, b) => a.start - b.start)`. -/
def insertByStart (m : MatchSpan) : List MatchSpan → List MatchSpan
  | [] => [m]
  | v :: vs => if m.start < v.start then m :: v :: vs else v :: insertByStart m vs

/-- Stable sort of the candidate matches by start offset. -/
def sortByStart (ms : List MatchSpan) : List MatchSpan :=
  ms.foldr insertByStart []

/-- `highlightTextNode`'s selection stage: sort all candidate matches by start
offset, then accept left to right, silently dropping overlapping matches. -/
def validMatches (ms : List MatchSpan) : List MatchSpan :=
  acceptMatches (sortByStart ms)

/- ### Regex scanners

The scripts find occurrences with `\b`-anchored regexes, either one term at a
time (`new RegExp("\\b" + term + "\\b", flags)`) or as an ordered alternation
of all terms (`new RegExp("\\b(" + escapedTerms.join("|") + ")\\b", "g")`).
The scanners below model the `g`-flag exec loop: repeatedly find the leftmost
boundary-delimited occurrence, trying alternatives in list order at each
position, and resume after the end of each match. -/

/-- One pass of the global alternation regex, fuelled so that it is
structurally recursive: every step consumes at least one character, so fuel
equal to the string length never runs out. -/
def scanTermsF (terms : List (List Char)) :
    Nat → Option Char → List Char → Nat → List (Nat × List Char)
  | 0, _, _, _ => []
  | _ + 1, _, [], _ => []
  | fuel + 1, prev, c :: rest, i =>
    match
      (if wordBoundary prev (some c) then
        (terms.filter (fun t => !t.isEmpty)).find? (fun t =>
          t.isPrefixOf (c :: rest) &&
            wordBoundary t.getLast? (((c :: rest).drop t.length).head?))
      else none)
    with
    | some t => (i, t) :: scanTermsF terms fuel t.getLast? (rest.drop (t.length - 1)) (i + t.length)
    | none => scanTermsF terms fuel (some c) rest (i + 1)

/-- All matches of the global alternation regex over a text: all matches in
order, each as `(start offset, matched term)`.  `prev` is the character just
before the current position (`none` at the start of the string). -/
def scanTerms (terms : List (List Char)) (prev : Option Char) (s : List Char)
    (i : Nat) : List (Nat × List Char) :=
  scanTermsF terms s.length prev s i

/-- Case-insensitive prefix test on character lists (the `i` regex flag). -/
def ciPrefixOf : List Char → List Char → Bool
  | [], _ => true
  | _ :: _, [] => false
  | a :: ts, b :: ss => (a.toLower == b.toLower) && ciPrefixOf ts ss

/-- All matches of the single-term case-insensitive global regex
`new RegExp("\\b(" + term + ")\\b", "gi")` over a text, as character spans
(used by `highlightTextNode` of `TS14(imp).js` to collect candidate
matches). -/
def findTermMatchesF (t : List Char) : Nat → Option Char → List Char → Nat → List MatchSpan
  | 0, _, _, _ => []
  | _ + 1, _, [], _ => []
  | fuel + 1, prev, c :: rest, i =>
    if !t.isEmpty && wordBoundary prev (some c) && ciPrefixOf t (c :: rest) &&
        wordBoundary t.getLast? (((c :: rest).drop t.length).head?) then
      MatchSpan.mk i (i + t.length) ::
        findTermMatchesF t fuel t.getLast? (rest.drop (t.length - 1)) (i + t.length)
    else
      findTermMatchesF t fuel (some c) rest (i + 1)

/-- All matches of the single-term case-insensitive global regex over a
text, starting from a given previous character and offset. -/
def findTermMatches (t : List Char) (prev : Option Char) (s : List Char)
    (i : Nat) : List MatchSpan :=
  findTermMatchesF t s.length prev s i

/- ### C2 : the annotation walker of `highlightInParagraph` (TS14)

`highlightInParagraph` walks the text nodes of a paragraph with a filter

    acceptNode: node.parentElement.tagName === 'A' ||
                node.parentElement.closest('[data-wiki-highlight]')
                  ? REJECT : ACCEPT

and hands every accepted text node to `highlightTextNode`, which replaces it
with a `<span>` wrapper holding plain text runs and
`<span data-wiki-highlight ...>` decoration spans for the accepted matches.
The DOM is modelled as a tree of elements (tag, attributes, children) and
text nodes; only the semantically relevant attribute `data-wiki-highlight`
is retained, presentation attributes are elided. -/

/-- A DOM subtree. -/
inductive DomNode where
  | textNode (s : String)
  | elem (tag : String) (attrs : List String) (children : List DomNode)
deriving Repr

/-- The ancestor chain of a node, innermost (parent) first: for each ancestor
element its tag and attributes. -/
abbrev Ancestors := List (String × List String)

/-- The walker's first rejection condition:
`node.parentElement.tagName === 'A'` (it inspects only the immediate
parent). -/
def parentIsLink (anc : Ancestors) : Bool :=
  match anc with
  | [] => false
  | (tag, _) :: _ => tag == "A"

/-- The walker's second rejection condition:
`node.parentElement.closest('[data-wiki-highlight]')` — some ancestor,
starting from the parent itself, carries the decoration attribute. -/
def insideHighlight (anc : Ancestors) : Bool :=
  anc.any (fun p => p.2.contains "data-wiki-highlight")

/-- Whether a node is itself a decoration span. -/
def hasHighlightAttr : DomNode → Bool
  | .textNode _ => false
  | .elem _ attrs _ => attrs.contains "data-wiki-highlight"

/-- Whether a node is a text node. -/
def isTextNode : DomNode → Bool
  | .textNode _ => true
  | .elem _ _ _ => false

/-- The months blacklist of `TS14(imp).js` (`DEFAULT_CONFIG.blacklist`). -/
def ts14Blacklist : List String :=
  ["January", "February", "March", "April", "May", "June", "July",
   "August", "September", "October", "November", "December"]

/-- The `commonWords` list of `shouldExclude` in `TS14(imp).js`. -/
def ts14CommonWords : List String :=
  ["this", "that", "these", "those", "with", "from", "have", "been", "were",
   "their", "there", "where", "what", "when"]

/-- Test for one of the ordinal suffixes `st`, `nd`, `rd`, `th`. -/
def ordinalSuffix (a b : Char) : Bool :=
  (a == 's' && b == 't') || (a == 'n' && b == 'd') ||
    (a == 'r' && b == 'd') || (a == 't' && b == 'h')

/-- Test for `/^\d{1,2}(st|nd|rd|th)$/`. -/
def isOrdinalDay (w : String) : Bool :=
  match w.data with
  | [d, s1, s2] => d.isDigit && ordinalSuffix s1 s2
  | [d1, d2, s1, s2] => d1.isDigit && d2.isDigit && ordinalSuffix s1 s2
  | _ => false

/-- `shouldExclude` of `TS14(imp).js` lines 131-149: the current article
title (exact case-folded match), blacklisted months, pure numbers, ordinal
day tokens and a fixed list of common words are excluded. -/
def shouldExcludeTS14 (currentArticle word : String) : Bool :=
  let lower := lowerStr word
  if lower == lowerStr currentArticle then true
  else if ts14Blacklist.any (fun b => lowerStr b == lower) then true
  else if isPureNumber word then true
  else if isOrdinalDay word then true
  else if ts14CommonWords.contains lower then true
  else false

/-- All candidate matches of `highlightTextNode` (TS14): for every term of
`wikiTerms` that survives `shouldExclude`, every `gi`-regex occurrence in the
text, in term iteration order. -/
def collectTermMatches (currentArticle : String) (wikiTerms : List String)
    (text : List Char) : List MatchSpan :=
  (wikiTerms.filter (fun t => !shouldExcludeTS14 currentArticle t)).flatMap
    (fun t => findTermMatches t.data none text 0)

/-- The alternating plain-text / decoration-span children built by
`highlightTextNode` from the accepted matches (empty string runs produce no
DOM text node). -/
def segsFrom (text : List Char) : Nat → List MatchSpan → List DomNode
  | lastIndex, [] =>
    let s := sliceStr text lastIndex text.length
    if s.isEmpty then [] else [DomNode.textNode s]
  | lastIndex, m :: ms =>
    let s := sliceStr text lastIndex m.start
    (if s.isEmpty then [] else [DomNode.textNode s]) ++
      DomNode.elem "span" ["data-wiki-highlight"]
          [DomNode.textNode (sliceStr text m.start m.stop)] ::
        segsFrom text m.stop ms

/-- `highlightTextNode` of `TS14(imp).js`: collect all term matches, bail out
when there are none, select the non-overlapping ones, bail out when none
survive, otherwise produce the replacement wrapper's children. -/
def highlightTextNode (currentArticle : String) (wikiTerms : List String)
    (s : String) : Option (List DomNode) :=
  let ms := collectTermMatches currentArticle wikiTerms s.data
  if ms.isEmpty then none
  else
    let valid := validMatches ms
    if valid.isEmpty then none
    else some (segsFrom s.data 0 valid)

mutual
/-- `highlightInParagraph` as a tree rewrite: a text node whose ancestry
passes the walker filter is replaced by `highlightTextNode`'s wrapper span
(when it produced one); rejected text nodes and all element structure are
kept as is. -/
def rewriteNode (currentArticle : String) (wikiTerms : List String)
    (anc : Ancestors) : DomNode → DomNode
  | .textNode s =>
    if parentIsLink anc || insideHighlight anc then .textNode s
    else
      match highlightTextNode currentArticle wikiTerms s with
      | none => .textNode s
      | some segs => .elem "span" [] segs
  | .elem tag attrs children =>
    .elem tag attrs (rewriteNodes currentArticle wikiTerms ((tag, attrs) :: anc) children)

/-- Children of an element, rewritten with the element prepended to the
ancestor chain. -/
def rewriteNodes (currentArticle : String) (wikiTerms : List String)
    (anc : Ancestors) : List DomNode → List DomNode
  | [] => []
  | n :: ns =>
    rewriteNode currentArticle wikiTerms anc n ::
      rewriteNodes currentArticle wikiTerms anc ns
end

mutual
/-- Whether a subtree contains a decoration span anywhere. -/
def containsHighlight : DomNode → Bool
  | .textNode _ => false
  | .elem _ attrs children =>
    attrs.contains "data-wiki-highlight" || containsHighlightList children

/-- Whether any tree of a list contains a decoration span. -/
def containsHighlightList : List DomNode → Bool
  | [] => false
  | n :: ns => containsHighlight n || containsHighlightList ns
end

/-- An existing link whose text sits in a nested element:
`<a><b>France</b></a>`. -/
def linkTree : DomNode :=
  .elem "A" [] [.elem "B" [] [.textNode "France"]]

/- ### C3 : the verification cache of `TS14(imp).js`

`cache = { exists: {}, notExists: {}, timestamp: Date.now() }`.
`loadCache` discards the whole cache when the *global* `cache.timestamp` is
older than `CONFIG.cacheExpiry`; `checkPagesExist` reads `cache.exists[lower]`
with no per-entry check; `cleanCache` is the explicit prune that filters
entries by their own timestamps. -/

/-- One positive cache record: `{ term, timestamp }`. -/
structure CacheEntry where
  term : String
  timestamp : Nat
deriving Repr, DecidableEq

/-- The persisted cache object.  `existsEntries` models `cache.exists`
(`exists` is a Lean keyword), `notExistsEntries` models `cache.notExists`. -/
structure WikiCache where
  existsEntries : List (String × CacheEntry)
  notExistsEntries : List (String × Nat)
  timestamp : Nat
deriving Repr, DecidableEq

/-- `{ exists: {}, notExists: {}, timestamp: Date.now() }`. -/
def emptyCache (now : Nat) : WikiCache :=
  ⟨[], [], now⟩

/-- `loadCache`: keep the saved cache unless its global timestamp is older
than the expiry, in which case start fresh. -/
def loadCache (saved : Option WikiCache) (now expiry : Nat) : WikiCache :=
  match saved with
  | none => emptyCache now
  | some c => if now - c.timestamp > expiry then emptyCache now else c

/-- Key lookup in an association list, the model of `obj[key]`. -/
def lookupEntry (entries : List (String × CacheEntry)) (key : String) :
    Option CacheEntry :=
  (entries.find? (fun p => p.1 == key)).map (fun p => p.2)

/-- The read `cache.exists[lower]` performed by `checkPagesExist`: a plain
lookup, no timestamp is consulted. -/
def cacheGetExists (c : WikiCache) (key : String) : Option CacheEntry :=
  lookupEntry c.existsEntries key

/-- The write `cache.exists[lower] = { term, timestamp: Date.now() }`. -/
def putExists (c : WikiCache) (key term : String) (now : Nat) : WikiCache :=
  { c with existsEntries :=
      (key, ⟨term, now⟩) :: c.existsEntries.filter (fun p => p.1 != key) }

/-- `cleanCache`: rebuild the cache keeping only `exists` entries younger
than the expiry, drop all `notExists` entries, stamp with the current time. -/
def cleanCache (c : WikiCache) (now expiry : Nat) : WikiCache :=
  { existsEntries := c.existsEntries.filter (fun p => now - p.2.timestamp < expiry),
    notExistsEntries := [],
    timestamp := now }

/- ### C4 : redirect handling of `part_005`

    result.query.pages.forEach(page => {
      if (!page.missing && !page.pageprops?.disambiguation) {
        const redirect = result.query.redirects?.find(r => r.to === page.title);
        finalTermsToHighlight.add(redirect ? redirect.from : page.title);
      }
    });
-/

/-- One page record of the API response. -/
structure ApiPage where
  title : String
  missing : Bool
  disambiguation : Bool
deriving Repr, DecidableEq

/-- One redirect record of the API response; `source` models the field
`from` (a Lean keyword), `target` models `to`. -/
structure ApiRedirect where
  source : String
  target : String
deriving Repr, DecidableEq

/-- The shape of one batch response: resolved pages plus redirect records. -/
structure ApiResponse where
  pages : List ApiPage
  redirects : List ApiRedirect
deriving Repr, DecidableEq

/-- The terms added to `finalTermsToHighlight` for one batch response: for
every existing, non-disambiguation page, the redirect source when the page
was reached through a redirect, else the page title. -/
def termsFromResponse (r : ApiResponse) : List String :=
  (r.pages.filter (fun p => !p.missing && !p.disambiguation)).map (fun p =>
    match r.redirects.find? (fun rd => rd.target == p.title) with
    | some rd => rd.source
    | none => p.title)

/-- Scenario 3's batch response: surface `Machine learning` redirects to the
canonical page `Machine Learning`. -/
def mlResponse : ApiResponse :=
  ⟨[⟨"Machine Learning", false, false⟩],
   [⟨"Machine learning", "Machine Learning"⟩]⟩

/- ### C5 / C7 : the batch verification loop of `TS13.js`

`analyzeText` dedups candidates with a `seen` set, drops already-linked terms
and the exact article title, slices the rest into batches of
`CONFIG.batchSize = 15`, and calls `checkWikipediaPages` per batch; a batch
whose fetch fails yields an empty set (`catch` → `new Set()`), and the final
suggestions are the batch hits sorted by text position. -/

/-- A candidate of `findLinkableWords`: `{ word, position }`. -/
structure LinkCandidate where
  word : String
  position : Nat
deriving Repr, DecidableEq

/-- `checkWikipediaPages` seen from its caller: the transport either delivers
the list of existing page titles of the response (`some`) or fails
(`none`, the `catch` branch), in which case the result set is empty.
Existing titles are recorded lower-cased. -/
def checkWikipediaPages (resp : Option (List String)) : List String :=
  match resp with
  | none => []
  | some pageTitles => pageTitles.map (fun t => lowerStr t)

/-- One step of the dedup filter of `analyzeText` lines 264-276: keep a
candidate when its lower-cased word is new (`seen`), not among the existing
wikilink texts and not the article title itself. -/
def uniqueStep (existingLinks : List String) (selfTitle : String)
    (acc : List String × List LinkCandidate) (item : LinkCandidate) :
    List String × List LinkCandidate :=
  if acc.1.contains (lowerStr item.word) then acc
  else if existingLinks.contains (lowerStr item.word) then acc
  else if lowerStr item.word == lowerStr selfTitle then acc
  else (acc.1 ++ [lowerStr item.word], acc.2 ++ [item])

/-- The deduped candidate list of `analyzeText`. -/
def uniqueCandidates (cands : List LinkCandidate) (existingLinks : List String)
    (selfTitle : String) : List LinkCandidate :=
  (cands.foldl (uniqueStep existingLinks selfTitle)
    (([], []) : List String × List LinkCandidate)).2

/-- The sequential batch loop: batch `i` keeps exactly its candidates whose
lower-cased word is in batch `i`'s response set. -/
def runBatches (oracle : Nat → Option (List String)) :
    Nat → List (List LinkCandidate) → List LinkCandidate
  | _, [] => []
  | i, b :: bs =>
    b.filter (fun item => (checkWikipediaPages (oracle i)).contains (lowerStr item.word)) ++
      runBatches oracle (i + 1) bs

/-- Stable insertion by `position`, for the final
`suggestions.sort((a, b) => a.position - b.position)`. -/
def insertByPosition (c : LinkCandidate) : List LinkCandidate → List LinkCandidate
  | [] => [c]
  | v :: vs => if c.position < v.position then c :: v :: vs else v :: insertByPosition c vs

/-- Stable sort of the suggestions by position. -/
def sortByPosition (l : List LinkCandidate) : List LinkCandidate :=
  l.foldr insertByPosition []

/-- `analyzeText`'s verification pipeline: dedup, batch, verify per batch,
sort hits by position. -/
def analyzeSuggestions (cands : List LinkCandidate) (existingLinks : List String)
    (selfTitle : String) (oracle : Nat → Option (List String)) : List LinkCandidate :=
  sortByPosition
    (runBatches oracle 0 (chunksOf 15 (uniqueCandidates cands existingLinks selfTitle)))

/-- Sixteen distinct candidates, filling one full batch of 15 plus one more:
`w0 .. w15`. -/
def sampleCands : List LinkCandidate :=
  (List.range 16).map (fun k => ⟨"w" ++ toString k, k⟩)

/-- A transport oracle under which batch `#0` succeeds (the response resolves
the single page `W0`) and batch `#1` suffers a transport failure. -/
def sampleOracle : Nat → Option (List String)
  | 0 => some ["W0"]
  | _ => none

/- ### C6 : the rate limiter of `TS14(imp).js`

    function canMakeRequest() {
      ...
      if (requestCount >= CONFIG.rateLimit) return false;
      requestCount++;
      return true;
    }

`checkPagesExist` reacts to `false` by waiting and retrying the same terms;
`fetchRelatedArticles` reacts to `false` by logging and returning without
fetching. -/

/-- The limiter state: the shared window counter and the configured limit. -/
structure RateState where
  requestCount : Nat
  rateLimit : Nat
deriving Repr, DecidableEq

/-- `canMakeRequest`: refuse at or above the limit, otherwise increment the
shared counter and allow. -/
def canMakeRequest (st : RateState) : Bool × RateState :=
  if st.requestCount ≥ st.rateLimit then (false, st)
  else (true, { st with requestCount := st.requestCount + 1 })

/-- The window timer `setInterval(() => { requestCount = 0 }, 60000)`. -/
def resetWindow (st : RateState) : RateState :=
  { st with requestCount := 0 }

/-- What a caller does with its pending work after consulting the limiter. -/
inductive RateDecision where
  | proceed
  | deferRetry
  | skipWork
deriving Repr, DecidableEq

/-- `checkPagesExist` lines 219-222: on `false` it sleeps and retries the
same `toCheck` list (`return checkPagesExist(toCheck)`), deferring the
work. -/
def checkPagesExistGate (st : RateState) : RateDecision × RateState :=
  let r := canMakeRequest st
  (if r.1 then RateDecision.proceed else RateDecision.deferRetry, r.2)

/-- `fetchRelatedArticles` lines 171-174: on `false` it logs
`Rate limit reached, skipping API call` and returns, dropping the fetch. -/
def fetchRelatedArticlesGate (st : RateState) : RateDecision × RateState :=
  let r := canMakeRequest st
  (if r.1 then RateDecision.proceed else RateDecision.skipWork, r.2)

/- ### C7 : `shouldExclude` of `part_002`

    function shouldExclude(word) {
      const lower = word.toLowerCase();
      const articleLower = currentArticle.toLowerCase();
      if (lower === articleLower) return true;
      if (articleLower.includes(lower) || lower.includes(articleLower)) return true;
      ... common words, pure numbers ...
    }
-/

/-- The `exclude` word list of `part_002`. -/
def part002ExcludeWords : List String :=
  ["january", "february", "march", "april", "may", "june",
   "july", "august", "september", "october", "november", "december",
   "monday", "tuesday", "wednesday", "thursday", "friday", "saturday", "sunday",
   "the", "and", "or", "but", "with", "from", "this", "that", "these", "those",
   "wikipedia", "retrieved", "archived", "original", "external", "references"]

/-- `shouldExclude` of `part_002` lines 46-67. -/
def shouldExclude (currentArticle word : String) : Bool :=
  let lower := lowerStr word
  let articleLower := lowerStr currentArticle
  if lower == articleLower then true
  else if jsIncludes articleLower lower || jsIncludes lower articleLower then true
  else if part002ExcludeWords.contains lower then true
  else if isPureNumber word then true
  else false

/-- The filtering structure of `extractWords` in `part_002`: each raw regex
match is added to the result set only when `shouldExclude` rejects it
(`if (!shouldExclude(w)) words.add(w)`); `raw` stands for the concatenated
regex match lists. -/
def extractWords (raw : List String) (currentArticle : String) : List String :=
  raw.foldl (fun words w =>
    if shouldExclude currentArticle w then words else setAdd words w) []

/-- The verification batches then built by `analyzeArticle` of `part_002`
(`CONFIG.batchSize = 15`). -/
def analyzeBatches (raw : List String) (currentArticle : String) :
    List (List String) :=
  chunksOf 15 (extractWords raw currentArticle)

/- ### C8 : the once-per-document pass of `part_005`

After verification, `part_005` walks the paragraph text nodes once, skipping
nodes inside `A, SUP, CITE, MARK`; in each remaining node it runs the global
alternation regex over all final terms and wraps a match in a `<mark>` only
when the term was not highlighted before anywhere in the document
(`highlightedOnce`); skipped matches stay plain text. -/

/-- A rewritten run of one text node: a plain text run or one decoration. -/
inductive Seg where
  | plain (s : String)
  | marked (term : String)
deriving Repr, DecidableEq

/-- One text node of the walked paragraphs: whether
`node.parentElement.closest('A, SUP, CITE, MARK')` rejects it, and its
text. -/
structure PNode where
  skipAncestor : Bool
  text : String
deriving Repr, DecidableEq

/-- The exec loop of `part_005` lines 132-147 over the matches of one node:
accept a match only when its term is a final term not yet highlighted,
emitting the pending plain run and the mark and advancing `lastIndex`;
rejected matches leave `lastIndex` alone so their text stays plain.
Returns (segments, highlightedOnce, lastIndex, hasChanges). -/
def part005Accept (text : List Char) (finalTerms : List String) :
    List (Nat × List Char) → List String → Nat →
      List Seg × List String × Nat × Bool
  | [], hl, lastIndex => ([], hl, lastIndex, false)
  | (i, t) :: ms, hl, lastIndex =>
    let tStr := String.mk t
    if finalTerms.contains tStr && !hl.contains tStr then
      let tail := part005Accept text finalTerms ms (hl ++ [tStr]) (i + t.length)
      (Seg.plain (sliceStr text lastIndex i) :: Seg.marked tStr :: tail.1,
        tail.2.1, tail.2.2.1, true)
    else
      part005Accept text finalTerms ms hl lastIndex

/-- Processing of one accepted text node: scan with the alternation regex,
accept matches via `highlightedOnce`, and replace the node only when
something changed (`if (hasChanges) node.replaceWith(fragment)`). -/
def part005Node (finalTerms : List String) (hl : List String) (text : String) :
    List Seg × List String :=
  let ms := scanTerms (finalTerms.map (fun t => t.data)) none text.data 0
  let r := part005Accept text.data finalTerms ms hl 0
  if r.2.2.2 then
    (r.1 ++ [Seg.plain (sliceStr text.data r.2.2.1 text.data.length)], r.2.1)
  else
    ([Seg.plain text], hl)

/-- One node of the pass: nodes inside `A, SUP, CITE, MARK` are left
untouched, the rest are processed with the document-global `highlightedOnce`
set threaded through. -/
def part005PassStep (finalTerms : List String)
    (acc : List (List Seg) × List String) (node : PNode) :
    List (List Seg) × List String :=
  if node.skipAncestor then (acc.1 ++ [[Seg.plain node.text]], acc.2)
  else
    let r := part005Node finalTerms acc.2 node.text
    (acc.1 ++ [r.1], r.2)

/-- The whole pass over the document's text nodes in document order. -/
def part005Pass (finalTerms : List String) (nodes : List PNode) :
    List (List Seg) :=
  (nodes.foldl (part005PassStep finalTerms)
    (([], []) : List (List Seg) × List String)).1

/-- Number of decorations of term `t` in one rewritten node. -/
def countMarked (t : String) (segs : List Seg) : Nat :=
  segs.countP (fun s => match s with | .marked u => u == t | _ => false)

/-- Number of decorations of term `t` in the whole rewritten document. -/
def totalMarked (t : String) (out : List (List Seg)) : Nat :=
  (out.map (fun segs => countMarked t segs)).sum

/-- Start offsets (in the reconstructed node text) of the decorations of
term `t`. -/
def markedStarts (t : String) (segs : List Seg) : List Nat :=
  (segs.foldl (fun acc s =>
      match s with
      | .plain u => (acc.1 + u.length, acc.2)
      | .marked u =>
        (acc.1 + u.length, if u == t then acc.2 ++ [acc.1] else acc.2))
    ((0, []) : Nat × List Nat)).2

/-- All `\b`-delimited occurrences of a single term in a text, as start
offsets (the matches of `new RegExp("\\b" + term + "\\b", "g")`). -/
def termOccurrences (t : String) (text : String) : List Nat :=
  (scanTerms [t.data] none text.data 0).map (fun p => p.1)

/- ### C9 : the capped highlighters

`TS13.js` lines 432-458 (`MAX_HIGHLIGHTS = 50`): while nodes remain and
`count < MAX_HIGHLIGHTS`, replace in the current node every occurrence of the
first matching term (global regex), increment `count` once, move on.
`part_003` TS8 script lines 219-256 (`MAX_HIGHLIGHTS = 40`): same walk, but
the per-term regex has no `g` flag, so only the first occurrence in the node
is replaced per count increment. -/

/-- Replace every `\b`-occurrence of a term in a node's text
(`text.replace(regex, mark)` with a global regex), as segments. -/
def segsOfOcc (text : List Char) (tlen : Nat) : Nat → List Nat → List Seg
  | lastIndex, [] => [Seg.plain (sliceStr text lastIndex text.length)]
  | lastIndex, i :: is =>
    Seg.plain (sliceStr text lastIndex i) ::
      Seg.marked (sliceStr text i (i + tlen)) :: segsOfOcc text tlen (i + tlen) is

/-- All occurrences of `t` in `text` replaced by marks. -/
def replaceTermAll (t : String) (text : String) : List Seg :=
  segsOfOcc text.data t.data.length 0 (termOccurrences t text)

/-- The first term of the list with a `\b`-occurrence in the text
(`for (const t of terms) { if (regex.test(text)) ... break; }`). -/
def firstMatchingTerm (terms : List String) (text : String) : Option String :=
  terms.find? (fun t => !(termOccurrences t text).isEmpty)

/-- One node of the fallback `highlightTerms` of `TS13.js`: while
`count < 50`, in a node where some term matches, replace all its occurrences
and count one event; other nodes pass through unchanged. -/
def ts13Step (terms : List String) (acc : List (List Seg) × Nat)
    (node : String) : List (List Seg) × Nat :=
  if acc.2 < 50 then
    match firstMatchingTerm terms node with
    | some t => (acc.1 ++ [replaceTermAll t node], acc.2 + 1)
    | none => (acc.1 ++ [[Seg.plain node]], acc.2)
  else (acc.1 ++ [[Seg.plain node]], acc.2)

/-- The fallback `highlightTerms` of `TS13.js` over all walked text nodes.
Returns the rewritten nodes and the final count. -/
def ts13Run (terms : List String) (nodes : List String) :
    List (List Seg) × Nat :=
  nodes.foldl (ts13Step terms) (([], 0) : List (List Seg) × Nat)

/-- The rewritten nodes of the TS13 fallback highlighter. -/
def ts13HighlightTerms (terms : List String) (nodes : List String) :
    List (List Seg) :=
  (ts13Run terms nodes).1

/-- Replace only the first `\b`-occurrence of a term (regex without the `g`
flag), as in the TS8 script of `part_003`. -/
def replaceTermFirst (t : String) (text : String) : List Seg :=
  match termOccurrences t text with
  | [] => [Seg.plain text]
  | i :: _ =>
    [Seg.plain (sliceStr text.data 0 i),
     Seg.marked (sliceStr text.data i (i + t.data.length)),
     Seg.plain (sliceStr text.data (i + t.data.length) text.data.length)]

/-- One node of the TS8 `highlightTerms` of `part_003`: while `count < 40`,
in a node where some term matches, replace its first occurrence and count
one event. -/
def ts8Step (terms : List String) (acc : List (List Seg) × Nat)
    (node : String) : List (List Seg) × Nat :=
  if acc.2 < 40 then
    match firstMatchingTerm terms node with
    | some t => (acc.1 ++ [replaceTermFirst t node], acc.2 + 1)
    | none => (acc.1 ++ [[Seg.plain node]], acc.2)
  else (acc.1 ++ [[Seg.plain node]], acc.2)

/-- The TS8 `highlightTerms` of `part_003` over all walked text nodes. -/
def ts8Run (terms : List String) (nodes : List String) :
    List (List Seg) × Nat :=
  nodes.foldl (ts8Step terms) (([], 0) : List (List Seg) × Nat)

/-- The rewritten nodes of the TS8 highlighter. -/
def ts8HighlightTerms (terms : List String) (nodes : List String) :
    List (List Seg) :=
  (ts8Run terms nodes).1

/-- Whether a segment is a decoration. -/
def isMarkedSeg : Seg → Bool
  | .marked _ => true
  | .plain _ => false

/-- Decorations inserted in one node. -/
def marksIn (segs : List Seg) : Nat :=
  segs.countP (fun s => isMarkedSeg s)

/-- Total number of decorations inserted into the document. -/
def totalMarks (out : List (List Seg)) : Nat :=
  (out.map marksIn).sum

/-- A single paragraph text node holding 51 occurrences of `Paris`. -/
def bigParisNode : String :=
  String.intercalate " " (List.replicate 51 "Paris")

/- ### C10 : candidate collection of `part_000` (TS 5)

    const candidates = new Set();
    nodes.forEach(n => { matches.forEach(m => {
      const t = m.trim();
      if (!t) return;
      if (/^\d+$/.test(t)) return;
      if (blacklist.has(t.toLowerCase())) return;
      candidates.add(t);
    }); });
    const toCheck = Array.from(candidates).filter(term => !linkedTexts.has(term));
    for (let i = 0; i < toCheck.length; i += API_BATCH) ...   // API_BATCH = 40
-/

/-- The stopword blacklist of `part_000`. -/
def ts5Blacklist : List String :=
  ["the", "and", "for", "are", "was", "were", "with", "from", "this", "that",
   "these", "those", "about", "which", "their", "there", "other", "also",
   "than", "then", "such", "have", "into", "after", "before", "when", "what",
   "where", "who", "why", "how", "one", "two", "three", "said"]

/-- The candidate `Set` accumulation over all raw regex matches. -/
def collectCandidates (rawMatches : List String) : List String :=
  rawMatches.foldl (fun acc m =>
      let t := trimStr m
      if t == "" then acc
      else if isPureNumber t then acc
      else if ts5Blacklist.contains (lowerStr t) then acc
      else setAdd acc t)
    []

/-- `toCheck`: candidates not already linked on the page. -/
def toCheckTS5 (rawMatches linkedTexts : List String) : List String :=
  (collectCandidates rawMatches).filter (fun term => !linkedTexts.contains term)

/-- The verification requests, batches of `API_BATCH = 40` titles. -/
def ts5Batches (rawMatches linkedTexts : List String) : List (List String) :=
  chunksOf 40 (toCheckTS5 rawMatches linkedTexts)



/- ## Theorems -/

/- ### Helper lemmas -/

theorem chunksOfF_flatten (n : Nat) (hn : n ≠ 0) :
    ∀ (fuel : Nat) (l : List α), l.length ≤ fuel + 1 →
      (chunksOfF n fuel l).flatten = l := by
  intro fuel
  induction fuel with
  | zero =>
    intro l hl
    match l with
    | [] => simp [chunksOfF]
    | [a] => simp [chunksOfF]
    | a :: b :: t => simp at hl
  | succ fuel ih =>
    intro l hl
    match l with
    | [] => simp [chunksOfF]
    | a :: t =>
      rw [chunksOfF, if_neg hn, List.flatten_cons, ih]
      · exact List.take_append_drop n (a :: t)
      · simp only [List.length_drop, List.length_cons]
        simp only [List.length_cons] at hl
        omega

theorem chunksOf_flatten (n : Nat) (hn : n ≠ 0) (l : List α) :
    (chunksOf n l).flatten = l :=
  chunksOfF_flatten n hn l.length l (by omega)

theorem setAdd_nodup (l : List String) (x : String) (h : l.Nodup) :
    (setAdd l x).Nodup := by
  unfold setAdd
  by_cases hc : x ∈ l
  · simpa [hc]
  · simp only [hc, if_false]
    rw [List.nodup_append]
    refine ⟨h, List.nodup_singleton x, ?_⟩
    intro a ha hb
    simp only [List.mem_singleton] at hb
    subst hb
    exact hc ha

/-- Chunks of a duplicate-free list are pairwise disjoint and each
duplicate-free: no element lands in two different chunks. -/
theorem chunksOf_disjoint (n : Nat) (hn : n ≠ 0) (l : List α) (h : l.Nodup) :
    (∀ b ∈ chunksOf n l, b.Nodup) ∧
      List.Pairwise List.Disjoint (chunksOf n l) := by
  have hf : (chunksOf n l).flatten.Nodup := by
    rw [chunksOf_flatten n hn l]; exact h
  rw [List.nodup_flatten] at hf
  exact hf

theorem mem_chunksOf (n : Nat) (hn : n ≠ 0) (l : List α) {b : List α} {x : α}
    (hb : b ∈ chunksOf n l) (hx : x ∈ b) : x ∈ l := by
  have : x ∈ (chunksOf n l).flatten := List.mem_flatten.mpr ⟨b, hb, hx⟩
  rwa [chunksOf_flatten n hn l] at this

/- ### C1 -/

theorem mem_insertByStart {b m : MatchSpan} {l : List MatchSpan} :
    b ∈ insertByStart m l ↔ b = m ∨ b ∈ l := by
  induction l with
  | nil => simp [insertByStart]
  | cons v vs ih =>
    unfold insertByStart
    by_cases hc : m.start < v.start
    · simp [hc]
    · simp only [hc, if_false, List.mem_cons, ih]
      tauto

theorem insertByStart_sorted (m : MatchSpan) (l : List MatchSpan)
    (h : l.Pairwise (fun a b => a.start ≤ b.start)) :
    (insertByStart m l).Pairwise (fun a b => a.start ≤ b.start) := by
  induction l with
  | nil => simp [insertByStart]
  | cons v vs ih =>
    rw [List.pairwise_cons] at h
    unfold insertByStart
    by_cases hc : m.start < v.start
    · simp only [hc, if_true]
      refine List.pairwise_cons.mpr ⟨?_, List.pairwise_cons.mpr h⟩
      intro b hb
      rcases List.mem_cons.mp hb with rfl | hb
      · omega
      · have := h.1 b hb; omega
    · simp only [hc, if_false]
      refine List.pairwise_cons.mpr ⟨?_, ih h.2⟩
      intro b hb
      rcases mem_insertByStart.mp hb with rfl | hb
      · omega
      · exact h.1 b hb

theorem sortByStart_sorted (ms : List MatchSpan) :
    (sortByStart ms).Pairwise (fun a b => a.start ≤ b.start) := by
  induction ms with
  | nil => simp [sortByStart]
  | cons m rest ih => exact insertByStart_sorted m _ ih

/-- Invariant of the acceptance loop: starting from an accumulator whose
members all start no later than any remaining candidate and which is already
chained (`stop ≤ start` pairwise in order), the loop keeps it chained. -/
theorem acceptMatches_invariant (ms : List MatchSpan) (valid : List MatchSpan)
    (hsorted : ms.Pairwise (fun a b => a.start ≤ b.start))
    (hvm : ∀ v ∈ valid, ∀ m ∈ ms, v.start ≤ m.start)
    (hv : valid.Pairwise (fun a b => a.stop ≤ b.start)) :
    (ms.foldl
      (fun valid m => if valid.any (fun v => overlapsJS m v) then valid else valid ++ [m])
      valid).Pairwise (fun a b => a.stop ≤ b.start) := by
  induction ms generalizing valid with
  | nil => simpa
  | cons m rest ih =>
    rw [List.pairwise_cons] at hsorted
    simp only [List.foldl_cons]
    by_cases hov : valid.any (fun v => overlapsJS m v) = true
    · rw [if_pos hov]
      exact ih valid hsorted.2
        (fun v hv2 m2 hm2 => hvm v hv2 m2 (List.mem_cons_of_mem m hm2)) hv
    · rw [if_neg hov]
      apply ih _ hsorted.2
      · intro v hv2 m2 hm2
        rcases List.mem_append.mp hv2 with hv3 | hv3
        · exact hvm v hv3 m2 (List.mem_cons_of_mem m hm2)
        · simp only [List.mem_singleton] at hv3
          subst hv3
          exact hsorted.1 m2 hm2
      · rw [List.pairwise_append]
        refine ⟨hv, by simp, ?_⟩
        intro v hv2 b hb
        obtain rfl : b = m := by simpa using hb
        have hno : ¬ overlapsJS b v = true := fun hcon =>
          hov (List.any_eq_true.mpr ⟨v, hv2, hcon⟩)
        have hvs : v.start ≤ b.start := hvm v hv2 b (by simp)
        simp only [overlapsJS, Bool.or_eq_true, Bool.and_eq_true, decide_eq_true_eq,
          not_or, not_and] at hno
        omega

/-- C1.  For every text region and every set of approved terms, the matches
accepted by `highlightTextNode` (candidates sorted by start offset, then
accepted left to right only when the `overlaps` test fails against every
already-accepted match, rejected matches silently dropped) are pairwise
non-overlapping: for any two accepted matches A before B in the accepted
list, `A.end ≤ B.start ∨ B.end ≤ A.start`. -/
theorem accepted_matches_nonoverlapping (ms : List MatchSpan) :
    (validMatches ms).Pairwise
      (fun a b => a.stop ≤ b.start ∨ b.stop ≤ a.start) := by
  have h := acceptMatches_invariant (sortByStart ms) []
    (sortByStart_sorted ms) (by simp) (by simp)
  exact h.imp (fun hab => Or.inl hab)

set_option maxRecDepth 40000

/- ### C3 -/

/-- C3 counterexample.  A real trace of `TS14(imp).js` (TTL 7): the key
`paris` is put at time 0, `cleanCache` runs at time 6 (entry kept, global
timestamp refreshed), the cache is reloaded at time 10 — the global
timestamp is fresh, so `loadCache` keeps everything — and the read at time
10 returns the record although the entry is 10 ≥ 7 time units old, where the
claim requires it to be reported absent. -/
theorem cache_read_ignores_entry_age :
    cacheGetExists
        (loadCache (some (cleanCache (putExists (emptyCache 0) "paris" "Paris" 0) 6 7))
          10 7) "paris" = some ⟨"Paris", 0⟩ ∧
      ¬ ((10 : Nat) - 0 < 7) := by
  decide

/-- C3 amended.  TTL expiry is not applied per entry at read time: the whole
cache is discarded at load time when the *global* timestamp is older than
the TTL and kept in full otherwise (reads then return any present entry
regardless of its own age), and per-entry expiry happens only in the
explicit `cleanCache` prune, which keeps exactly the entries younger than
the TTL. -/
theorem cache_ttl_amended (saved : WikiCache) (now expiry : Nat) :
    (now - saved.timestamp ≤ expiry →
      ∀ key, cacheGetExists (loadCache (some saved) now expiry) key =
        cacheGetExists saved key) ∧
    (now - saved.timestamp > expiry →
      ∀ key, cacheGetExists (loadCache (some saved) now expiry) key = none) ∧
    (∀ key e, (key, e) ∈ (cleanCache saved now expiry).existsEntries ↔
      (key, e) ∈ saved.existsEntries ∧ now - e.timestamp < expiry) := by
  refine ⟨fun h key => ?_, fun h key => ?_, fun key e => ?_⟩
  · have hng : ¬ now - saved.timestamp > expiry := by omega
    simp [loadCache, hng]
  · simp [loadCache, h, emptyCache, cacheGetExists, lookupEntry]
  · simp [cleanCache, List.mem_filter]

/-- Witness for `cache_ttl_amended` at concrete inputs: a fresh global
timestamp keeps the whole cache (and the contained old entry readable), a
stale global timestamp empties it, and `cleanCache` keeps a young entry. -/
theorem cache_ttl_amended_witness :
    cacheGetExists
        (loadCache (some (⟨[("k", ⟨"K", 0⟩)], [], 6⟩ : WikiCache)) 10 7) "k" =
      some ⟨"K", 0⟩ ∧
    cacheGetExists
        (loadCache (some (⟨[("k", ⟨"K", 0⟩)], [], 6⟩ : WikiCache)) 20 7) "k" = none ∧
    ("k", (⟨"K", 0⟩ : CacheEntry)) ∈
      (cleanCache (⟨[("k", ⟨"K", 0⟩)], [], 6⟩ : WikiCache) 5 7).existsEntries := by
  refine ⟨?_, ?_, ?_⟩
  · have h := (cache_ttl_amended ⟨[("k", ⟨"K", 0⟩)], [], 6⟩ 10 7).1 (by decide) "k"
    rw [h]; decide
  · exact (cache_ttl_amended ⟨[("k", ⟨"K", 0⟩)], [], 6⟩ 20 7).2.1 (by decide) "k"
  · exact ((cache_ttl_amended ⟨[("k", ⟨"K", 0⟩)], [], 6⟩ 5 7).2.2 "k" ⟨"K", 0⟩).mpr
      ⟨by decide, by decide⟩

/- ### C4 -/

/-- C4 counterexample.  Scenario 3's response: the highlight set built by
`part_005` holds only the surface form `Machine learning`; the resolved
canonical title `Machine Learning` is discarded rather than carried with
the record. -/
theorem redirect_canonical_not_carried :
    termsFromResponse mlResponse = ["Machine learning"] ∧
      "Machine Learning" ∉ termsFromResponse mlResponse := by
  decide

/-- C4 amended.  For every existing, non-disambiguation page reached through
a redirect, `part_005` records the *originally requested* surface form
(`redirect.from`) in the highlight set — in place of, not alongside, the
canonical title — so the original surface text in the document is still
decorated. -/
theorem redirect_surface_form_recorded (r : ApiResponse) (p : ApiPage)
    (rd : ApiRedirect) (hp : p ∈ r.pages) (hm : p.missing = false)
    (hd : p.disambiguation = false)
    (hrd : r.redirects.find? (fun x => x.target == p.title) = some rd) :
    rd.source ∈ termsFromResponse r := by
  unfold termsFromResponse
  refine List.mem_map.mpr ⟨p, ?_, ?_⟩
  · rw [List.mem_filter]
    exact ⟨hp, by simp [hm, hd]⟩
  · rw [hrd]

/-- Witness for `redirect_surface_form_recorded` on Scenario 3's response. -/
theorem redirect_surface_form_recorded_witness :
    "Machine learning" ∈ termsFromResponse mlResponse :=
  redirect_surface_form_recorded mlResponse ⟨"Machine Learning", false, false⟩
    ⟨"Machine learning", "Machine Learning"⟩ (by decide) rfl rfl (by decide)

/- ### C6 -/

/-- C6 counterexample.  With the window counter at the limit,
`canMakeRequest` returns false and the caller `fetchRelatedArticles` skips
its API call altogether instead of deferring and retrying, so that fetch is
dropped. -/
theorem rate_limited_caller_drops_work :
    (canMakeRequest ⟨100, 100⟩).1 = false ∧
      (fetchRelatedArticlesGate ⟨100, 100⟩).1 = RateDecision.skipWork ∧
      (fetchRelatedArticlesGate ⟨100, 100⟩).1 ≠ RateDecision.deferRetry := by
  decide

/-- C6 amended.  `canMakeRequest` returns true and increments the shared
window counter exactly when the counter is strictly below the limit and
returns false leaving the state unchanged otherwise (the window timer resets
the counter); on false, `checkPagesExist` defers and retries its pending
terms, but `fetchRelatedArticles` skips (drops) its call. -/
theorem rate_limiter_amended (st : RateState) :
    (st.requestCount < st.rateLimit →
      (canMakeRequest st).1 = true ∧
        (canMakeRequest st).2.requestCount = st.requestCount + 1) ∧
    (st.rateLimit ≤ st.requestCount →
      (canMakeRequest st).1 = false ∧ (canMakeRequest st).2 = st ∧
        (checkPagesExistGate st).1 = RateDecision.deferRetry ∧
        (fetchRelatedArticlesGate st).1 = RateDecision.skipWork) ∧
    (resetWindow st).requestCount = 0 := by
  refine ⟨fun h => ?_, fun h => ?_, rfl⟩
  · have hng : ¬ st.requestCount ≥ st.rateLimit := by omega
    simp [canMakeRequest, hng]
  · have hge : st.requestCount ≥ st.rateLimit := h
    simp [canMakeRequest, checkPagesExistGate, fetchRelatedArticlesGate, hge]

/-- Witness for `rate_limiter_amended` below and at the limit. -/
theorem rate_limiter_amended_witness :
    ((canMakeRequest ⟨5, 10⟩).1 = true ∧
      (canMakeRequest ⟨5, 10⟩).2.requestCount = 6) ∧
    ((canMakeRequest ⟨100, 100⟩).1 = false ∧ (canMakeRequest ⟨100, 100⟩).2 = ⟨100, 100⟩ ∧
      (checkPagesExistGate ⟨100, 100⟩).1 = RateDecision.deferRetry ∧
      (fetchRelatedArticlesGate ⟨100, 100⟩).1 = RateDecision.skipWork) :=
  ⟨(rate_limiter_amended ⟨5, 10⟩).1 (by decide),
   (rate_limiter_amended ⟨100, 100⟩).2.1 (by decide)⟩

/- ### C10 -/

/-- A fold whose step either keeps the accumulator or `setAdd`s one element
preserves freedom from duplicates. -/
theorem foldl_setAdd_nodup (f : List String → String → List String)
    (hf : ∀ acc x, f acc x = acc ∨ ∃ y, f acc x = setAdd acc y) :
    ∀ (l acc : List String), acc.Nodup → (l.foldl f acc).Nodup := by
  intro l
  induction l with
  | nil => intro acc h; simpa
  | cons a t ih =>
    intro acc h
    simp only [List.foldl_cons]
    rcases hf acc a with he | ⟨y, he⟩ <;> rw [he]
    · exact ih acc h
    · exact ih _ (setAdd_nodup acc y h)

/-- C10.  Candidate extraction of `part_000` accumulates surface forms into a
`Set`, so the `toCheck` list submitted for verification is duplicate-free,
every batch of 40 titles is duplicate-free, and the batches are pairwise
disjoint: no term is included in more than one verification request of the
same run. -/
theorem candidate_dedup (rawMatches linkedTexts : List String) :
    (toCheckTS5 rawMatches linkedTexts).Nodup ∧
      (∀ b ∈ ts5Batches rawMatches linkedTexts, b.Nodup) ∧
      List.Pairwise List.Disjoint (ts5Batches rawMatches linkedTexts) := by
  have h1 : (collectCandidates rawMatches).Nodup := by
    unfold collectCandidates
    apply foldl_setAdd_nodup _ ?_ rawMatches [] List.nodup_nil
    intro acc x
    by_cases hc1 : (trimStr x == "") = true
    · left; simp [hc1]
    · by_cases hc2 : isPureNumber (trimStr x) = true
      · left; simp [hc1, hc2]
      · by_cases hc3 : lowerStr (trimStr x) ∈ ts5Blacklist
        · left; simp [hc1, hc2, hc3]
        · right; exact ⟨trimStr x, by simp [hc1, hc2, hc3]⟩
  have h2 : (toCheckTS5 rawMatches linkedTexts).Nodup := h1.filter _
  have h3 := chunksOf_disjoint 40 (by omega) _ h2
  exact ⟨h2, h3.1, h3.2⟩

/- ### C7 -/

/-- C7 counterexample.  In `TS13.js`, `analyzeText` only excludes the exact
article title: the candidate `Royal`, although case-insensitively contained
in the title `Royal Society`, survives the filter and lands in verification
batch #0 — a verification request is issued for it. -/
theorem self_exclusion_ts13_counterexample :
    jsIncludes (lowerStr "Royal Society") (lowerStr "Royal") = true ∧
      LinkCandidate.mk "Royal" 0 ∈
        (chunksOf 15 (uniqueCandidates [⟨"Royal", 0⟩] [] "Royal Society")).getD 0 [] ∧
      "Royal" ∈
        ((chunksOf 15 (uniqueCandidates [⟨"Royal", 0⟩] [] "Royal Society")).getD 0 []).map
          (fun c => c.word) := by
  decide

/-- C7 amended.  In the `part_002` variant the claim holds: a candidate whose
case-folded form contains or is contained in the current article's title is
excluded by `shouldExclude`, hence never enters the extracted word set and
never appears in any verification batch; in the `TS13.js` variant only exact
equality with the title excludes, and containment does not
(`self_exclusion_ts13_counterexample`). -/
theorem self_exclusion_part002 (article word : String) (raw : List String)
    (h : (jsIncludes (lowerStr article) (lowerStr word) ||
        jsIncludes (lowerStr word) (lowerStr article)) = true) :
    shouldExclude article word = true ∧
      ∀ b ∈ analyzeBatches raw article, word ∉ b := by
  have hex : shouldExclude article word = true := by
    unfold shouldExclude
    by_cases h1 : (lowerStr word == lowerStr article) = true
    · rw [if_pos h1]
    · rw [if_neg h1, if_pos h]
  refine ⟨hex, ?_⟩
  intro b hb hw
  unfold analyzeBatches at hb
  have hwmem : word ∈ extractWords raw article :=
    mem_chunksOf 15 (by omega) _ hb hw
  revert hwmem
  unfold extractWords
  suffices hsuf : ∀ (l acc : List String), word ∉ acc →
      word ∉ l.foldl
        (fun words w => if shouldExclude article w then words else setAdd words w) acc by
    exact hsuf raw [] (by simp)
  intro l
  induction l with
  | nil => intro acc h2; simpa
  | cons a t ih =>
    intro acc h2
    simp only [List.foldl_cons]
    by_cases ha : shouldExclude article a = true
    · rw [if_pos ha]; exact ih acc h2
    · rw [if_neg ha]
      apply ih
      unfold setAdd
      by_cases hmem : a ∈ acc
      · simpa [hmem]
      · simp only [hmem, if_false]
        intro hcon
        rcases List.mem_append.mp hcon with hc | hc
        · exact h2 hc
        · simp only [List.mem_singleton] at hc
          subst hc
          exact ha hex

/-- Witness for `self_exclusion_part002`: `Royal` is contained in the
article title `Royal Society` and is excluded before any batch is built. -/
theorem self_exclusion_part002_witness :
    (jsIncludes (lowerStr "Royal Society") (lowerStr "Royal") ||
        jsIncludes (lowerStr "Royal") (lowerStr "Royal Society")) = true ∧
      shouldExclude "Royal Society" "Royal" = true ∧
      ∀ b ∈ analyzeBatches ["Royal", "Navy"] "Royal Society", "Royal" ∉ b :=
  ⟨by decide, self_exclusion_part002 "Royal Society" "Royal" ["Royal", "Navy"] (by decide)⟩

/- ### C5 -/

theorem mem_insertByPosition {b c : LinkCandidate} {l : List LinkCandidate} :
    b ∈ insertByPosition c l ↔ b = c ∨ b ∈ l := by
  induction l with
  | nil => simp [insertByPosition]
  | cons v vs ih =>
    unfold insertByPosition
    by_cases hc : c.position < v.position
    · simp [hc]
    · simp only [hc, if_false, List.mem_cons, ih]
      tauto

theorem mem_sortByPosition {b : LinkCandidate} {l : List LinkCandidate} :
    b ∈ sortByPosition l ↔ b ∈ l := by
  induction l with
  | nil => simp [sortByPosition]
  | cons c t ih =>
    simp only [sortByPosition, List.foldr_cons] at ih ⊢
    rw [mem_insertByPosition, ih, List.mem_cons]

theorem mem_runBatches {oracle : Nat → Option (List String)} {c : LinkCandidate} :
    ∀ (k : Nat) (bs : List (List LinkCandidate)),
      (c ∈ runBatches oracle k bs ↔
        ∃ j, ∃ hj : j < bs.length, c ∈ bs.get ⟨j, hj⟩ ∧
          (checkWikipediaPages (oracle (k + j))).contains (lowerStr c.word) = true) := by
  intro k bs
  induction bs generalizing k with
  | nil => simp [runBatches]
  | cons b rest ih =>
    simp only [runBatches, List.mem_append, List.mem_filter, ih]
    constructor
    · rintro (⟨hcb, hcont⟩ | ⟨j, hj, hcb, hcont⟩)
      · exact ⟨0, by simp, by simpa using hcb, by simpa using hcont⟩
      · refine ⟨j + 1, by simpa using hj, by simpa using hcb, ?_⟩
        rw [show k + (j + 1) = k + 1 + j by omega]
        exact hcont
    · rintro ⟨j, hj, hcb, hcont⟩
      cases j with
      | zero =>
        left
        exact ⟨by simpa using hcb, by simpa using hcont⟩
      | succ j2 =>
        right
        refine ⟨j2, by simpa using hj, by simpa using hcb, ?_⟩
        rw [show k + 1 + j2 = k + (j2 + 1) by omega]
        exact hcont

/-- Invariant of the `seen`-set dedup fold of `analyzeText`: every kept
candidate's lower-cased word is in the seen set, and kept candidates have
pairwise distinct lower-cased words. -/
theorem uniqueStep_inv (existingLinks : List String) (selfTitle : String) :
    ∀ (cands : List LinkCandidate) (acc : List String × List LinkCandidate),
      (∀ it ∈ acc.2, lowerStr it.word ∈ acc.1) →
      acc.2.Pairwise (fun a b => lowerStr a.word ≠ lowerStr b.word) →
      (∀ it ∈ (cands.foldl (uniqueStep existingLinks selfTitle) acc).2,
          lowerStr it.word ∈ (cands.foldl (uniqueStep existingLinks selfTitle) acc).1) ∧
        (cands.foldl (uniqueStep existingLinks selfTitle) acc).2.Pairwise
          (fun a b => lowerStr a.word ≠ lowerStr b.word) := by
  intro cands
  induction cands with
  | nil => intro acc h1 h2; exact ⟨h1, h2⟩
  | cons item rest ih =>
    intro acc h1 h2
    simp only [List.foldl_cons]
    by_cases hc1 : acc.1.contains (lowerStr item.word) = true
    · rw [show uniqueStep existingLinks selfTitle acc item = acc by
        unfold uniqueStep; rw [if_pos hc1]]
      exact ih acc h1 h2
    · by_cases hc2 : existingLinks.contains (lowerStr item.word) = true
      · rw [show uniqueStep existingLinks selfTitle acc item = acc by
          unfold uniqueStep; rw [if_neg hc1, if_pos hc2]]
        exact ih acc h1 h2
      · by_cases hc3 : (lowerStr item.word == lowerStr selfTitle) = true
        · rw [show uniqueStep existingLinks selfTitle acc item = acc by
            unfold uniqueStep; rw [if_neg hc1, if_neg hc2, if_pos hc3]]
          exact ih acc h1 h2
        · rw [show uniqueStep existingLinks selfTitle acc item =
              (acc.1 ++ [lowerStr item.word], acc.2 ++ [item]) by
            unfold uniqueStep; rw [if_neg hc1, if_neg hc2, if_neg hc3]]
          apply ih
          · intro it hit
            rcases List.mem_append.mp hit with hx | hx
            · exact List.mem_append_left _ (h1 it hx)
            · simp only [List.mem_singleton] at hx
              subst hx
              exact List.mem_append_right _ (by simp)
          · rw [List.pairwise_append]
            refine ⟨h2, by simp, ?_⟩
            intro a ha b hb
            simp only [List.mem_singleton] at hb
            subst hb
            intro heq
            have : lowerStr a.word ∈ acc.1 := h1 a ha
            rw [heq] at this
            exact hc1 (List.elem_eq_true_of_mem this)

/-- The deduped candidate list of `analyzeText` is duplicate-free. -/
theorem uniqueCandidates_nodup (cands : List LinkCandidate)
    (existingLinks : List String) (selfTitle : String) :
    (uniqueCandidates cands existingLinks selfTitle).Nodup := by
  have h := uniqueStep_inv existingLinks selfTitle cands ([], [])
    (by simp) (by simp)
  unfold uniqueCandidates
  exact h.2.imp (fun hne heq => hne (by rw [heq]))

theorem mem_getD {l : List (List α)} {j : Nat} {c : α}
    (h : c ∈ l.getD j []) : ∃ hj : j < l.length, c ∈ l.get ⟨j, hj⟩ := by
  induction l generalizing j with
  | nil => simp [List.getD] at h
  | cons b rest ih =>
    cases j with
    | zero => exact ⟨by simp, by simpa using h⟩
    | succ j2 =>
      obtain ⟨hj, hc⟩ := ih (by simpa using h)
      exact ⟨by simpa using hj, by simpa using hc⟩

/-- An element of a duplicate-free list lies in exactly one of its chunks. -/
theorem chunk_index_unique {u : List LinkCandidate} (hu : u.Nodup)
    {j j2 : Nat} (hj : j < (chunksOf 15 u).length)
    (hj2 : j2 < (chunksOf 15 u).length) {c : LinkCandidate}
    (hc : c ∈ (chunksOf 15 u).get ⟨j, hj⟩)
    (hc2 : c ∈ (chunksOf 15 u).get ⟨j2, hj2⟩) : j = j2 := by
  by_contra hne
  have hd := (chunksOf_disjoint 15 (by omega) u hu).2
  rw [List.pairwise_iff_get] at hd
  rcases Nat.lt_or_ge j j2 with hlt | hge
  · exact hd ⟨j, hj⟩ ⟨j2, hj2⟩ (by simpa) hc hc2
  · have hlt2 : j2 < j := by omega
    exact hd ⟨j2, hj2⟩ ⟨j, hj⟩ (by simpa) hc2 hc

/-- C5.  In `analyzeText`, a batch-level transport failure yields zero
results for that batch — no candidate of the failed batch ever appears among
the suggestions — and does not block or alter the processing of other
batches: a candidate of a successfully fetched batch is suggested exactly
when its case-folded word is among the response's existing titles. -/
theorem batch_failure_isolated (cands : List LinkCandidate)
    (existingLinks : List String) (selfTitle : String)
    (oracle : Nat → Option (List String)) (i : Nat)
    (hfail : oracle i = none) :
    (∀ c ∈ (chunksOf 15 (uniqueCandidates cands existingLinks selfTitle)).getD i [],
        c ∉ analyzeSuggestions cands existingLinks selfTitle oracle) ∧
      (∀ j resp, oracle j = some resp →
        ∀ c ∈ (chunksOf 15 (uniqueCandidates cands existingLinks selfTitle)).getD j [],
          (c ∈ analyzeSuggestions cands existingLinks selfTitle oracle ↔
            lowerStr c.word ∈ resp.map (fun t => lowerStr t))) := by
  have hnodup := uniqueCandidates_nodup cands existingLinks selfTitle
  constructor
  · intro c hc hmem
    obtain ⟨hi, hciG⟩ := mem_getD hc
    unfold analyzeSuggestions at hmem
    rw [mem_sortByPosition] at hmem
    obtain ⟨j, hj, hcj, hcont⟩ := (mem_runBatches 0 _).mp hmem
    have hji : j = i := chunk_index_unique hnodup hj hi hcj hciG
    subst hji
    rw [Nat.zero_add, hfail] at hcont
    simp [checkWikipediaPages] at hcont
  · intro j resp hresp c hc
    obtain ⟨hjlen, hcG⟩ := mem_getD hc
    unfold analyzeSuggestions
    rw [mem_sortByPosition]
    rw [mem_runBatches 0]
    constructor
    · rintro ⟨j2, hj2, hcj2, hcont⟩
      have hj2j : j2 = j := chunk_index_unique hnodup hj2 hjlen hcj2 hcG
      subst hj2j
      rw [Nat.zero_add, hresp] at hcont
      exact List.mem_of_elem_eq_true hcont
    · intro hin
      refine ⟨j, hjlen, hcG, ?_⟩
      rw [Nat.zero_add, hresp]
      exact List.elem_eq_true_of_mem hin

/-- Witness for `batch_failure_isolated`: sixteen candidates split into a
batch of 15 and a batch of 1; the transport for batch #1 fails, so `w15`
yields no suggestion, while batch #0 succeeds and `w0` (resolved by its
response) is suggested. -/
theorem batch_failure_isolated_witness :
    LinkCandidate.mk "w15" 15 ∉ analyzeSuggestions sampleCands [] "Self" sampleOracle ∧
      LinkCandidate.mk "w0" 0 ∈ analyzeSuggestions sampleCands [] "Self" sampleOracle := by
  have h := batch_failure_isolated sampleCands [] "Self" sampleOracle 1 rfl
  refine ⟨h.1 ⟨"w15", 15⟩ (by decide), ?_⟩
  exact (h.2 0 ["W0"] rfl ⟨"w0", 0⟩ (by decide)).mpr (by decide)

/- ### C9 -/

theorem totalMarks_append (out : List (List Seg)) (x : List Seg) :
    totalMarks (out ++ [x]) = totalMarks out + marksIn x := by
  simp [totalMarks]

theorem marksIn_plain (s : String) : marksIn [Seg.plain s] = 0 := by
  simp [marksIn, isMarkedSeg]

theorem marksIn_replaceTermFirst (t node : String) :
    marksIn (replaceTermFirst t node) ≤ 1 := by
  unfold replaceTermFirst
  cases h : termOccurrences t node with
  | nil => simp [marksIn, isMarkedSeg]
  | cons i is => simp [marksIn, isMarkedSeg, List.countP_cons]

/-- One step of the TS8 walk keeps the decoration total below the running
count and the count below the cap of 40. -/
theorem ts8Step_inv (terms : List String) (acc : List (List Seg) × Nat)
    (node : String) (h1 : totalMarks acc.1 ≤ acc.2) (h2 : acc.2 ≤ 40) :
    totalMarks (ts8Step terms acc node).1 ≤ (ts8Step terms acc node).2 ∧
      (ts8Step terms acc node).2 ≤ 40 := by
  unfold ts8Step
  by_cases hlt : acc.2 < 40
  · rw [if_pos hlt]
    cases hm : firstMatchingTerm terms node with
    | some t =>
      simp only []
      refine ⟨?_, by omega⟩
      rw [totalMarks_append]
      have := marksIn_replaceTermFirst t node
      omega
    | none =>
      simp only []
      refine ⟨?_, h2⟩
      rw [totalMarks_append, marksIn_plain]
      omega
  · rw [if_neg hlt]
    refine ⟨?_, h2⟩
    rw [totalMarks_append, marksIn_plain]
    omega

theorem ts8_fold_inv (terms : List String) :
    ∀ (nodes : List String) (acc : List (List Seg) × Nat),
      totalMarks acc.1 ≤ acc.2 → acc.2 ≤ 40 →
      totalMarks (nodes.foldl (ts8Step terms) acc).1 ≤
          (nodes.foldl (ts8Step terms) acc).2 ∧
        (nodes.foldl (ts8Step terms) acc).2 ≤ 40 := by
  intro nodes
  induction nodes with
  | nil => intro acc h1 h2; exact ⟨h1, h2⟩
  | cons node rest ih =>
    intro acc h1 h2
    simp only [List.foldl_cons]
    have h := ts8Step_inv terms acc node h1 h2
    exact ih _ h.1 h.2

/-- One step of the TS13 walk keeps the number of decorated nodes equal to
the running count and the count below the cap of 50. -/
theorem ts13Step_inv (terms : List String) (acc : List (List Seg) × Nat)
    (node : String)
    (h1 : acc.1.countP (fun segs => segs.any (fun s => isMarkedSeg s)) = acc.2)
    (h2 : acc.2 ≤ 50) :
    (ts13Step terms acc node).1.countP (fun segs => segs.any (fun s => isMarkedSeg s)) =
        (ts13Step terms acc node).2 ∧
      (ts13Step terms acc node).2 ≤ 50 := by
  unfold ts13Step
  by_cases hlt : acc.2 < 50
  · rw [if_pos hlt]
    cases hm : firstMatchingTerm terms node with
    | some t =>
      simp only []
      unfold firstMatchingTerm at hm
      have hocc := List.find?_some hm
      have hany : ((replaceTermAll t node).any (fun s => isMarkedSeg s)) = true := by
        unfold replaceTermAll
        cases hoc : termOccurrences t node with
        | nil => rw [hoc] at hocc; simp at hocc
        | cons i is => simp [segsOfOcc, isMarkedSeg]
      refine ⟨?_, by omega⟩
      rw [List.countP_append, h1]
      simp [hany]
    | none =>
      simp only []
      refine ⟨?_, h2⟩
      rw [List.countP_append, h1]
      simp [isMarkedSeg]
  · rw [if_neg hlt]
    refine ⟨?_, h2⟩
    rw [List.countP_append, h1]
    simp [isMarkedSeg]

theorem ts13_fold_inv (terms : List String) :
    ∀ (nodes : List String) (acc : List (List Seg) × Nat),
      acc.1.countP (fun segs => segs.any (fun s => isMarkedSeg s)) = acc.2 →
      acc.2 ≤ 50 →
      (nodes.foldl (ts13Step terms) acc).1.countP
          (fun segs => segs.any (fun s => isMarkedSeg s)) =
          (nodes.foldl (ts13Step terms) acc).2 ∧
        (nodes.foldl (ts13Step terms) acc).2 ≤ 50 := by
  intro nodes
  induction nodes with
  | nil => intro acc h1 h2; exact ⟨h1, h2⟩
  | cons node rest ih =>
    intro acc h1 h2
    simp only [List.foldl_cons]
    have h := ts13Step_inv terms acc node h1 h2
    exact ih _ h.1 h.2

/-- C9 counterexample.  One text node holding 51 occurrences of `Paris`:
the TS13 fallback highlighter replaces all of them in one counted event, so
51 decorations are inserted — more than `MAX_HIGHLIGHTS = 50` — while the
cap counter has only reached 1. -/
theorem highlight_cap_counterexample :
    totalMarks (ts13HighlightTerms ["Paris"] [bigParisNode]) = 51 ∧
      50 < totalMarks (ts13HighlightTerms ["Paris"] [bigParisNode]) ∧
      (ts13Run ["Paris"] [bigParisNode]).2 = 1 := by
  decide

/-- C9 amended.  The cap bounds the number of counted replacement events,
not the number of inserted decorations: in the TS13 fallback highlighter at
most 50 text nodes are decorated per run (one counted event each, but an
event replaces every occurrence of the term in that node, so the decoration
total can exceed 50); in the TS8 variant each event inserts at most one
decoration, so the decoration total itself never exceeds its cap of 40. -/
theorem highlight_cap_amended (terms : List String) (nodes : List String) :
    (ts13HighlightTerms terms nodes).countP
        (fun segs => segs.any (fun s => isMarkedSeg s)) ≤ 50 ∧
      totalMarks (ts8HighlightTerms terms nodes) ≤ 40 := by
  constructor
  · have h := ts13_fold_inv terms nodes ([], 0) (by simp) (by omega)
    unfold ts13HighlightTerms ts13Run
    omega
  · have h := ts8_fold_inv terms nodes ([], 0) (by simp [totalMarks]) (by omega)
    unfold ts8HighlightTerms ts8Run
    exact le_trans h.1 h.2

/- ### C8 -/

theorem countMarked_plain_cons (t s : String) (l : List Seg) :
    countMarked t (Seg.plain s :: l) = countMarked t l := by
  simp [countMarked, List.countP_cons]

theorem countMarked_marked_cons (t u : String) (l : List Seg) :
    countMarked t (Seg.marked u :: l) =
      countMarked t l + (if (u == t) = true then 1 else 0) := by
  simp [countMarked, List.countP_cons]

theorem totalMarked_append (t : String) (out : List (List Seg)) (x : List Seg) :
    totalMarked t (out ++ [x]) = totalMarked t out + countMarked t x := by
  simp [totalMarked]

theorem countMarked_append (t : String) (l1 l2 : List Seg) :
    countMarked t (l1 ++ l2) = countMarked t l1 + countMarked t l2 := by
  simp [countMarked, List.countP_append]

theorem countMarked_plain_single (t s : String) :
    countMarked t [Seg.plain s] = 0 := by
  simp [countMarked]

/-- Invariants of the accept loop of one node: the `highlightedOnce` set only
grows, a term already in it is never marked again, each term is marked at
most once within the node, and a term marked in the node ends up in the
set. -/
theorem part005Accept_inv (text : List Char) (finalTerms : List String)
    (t : String) :
    ∀ (ms : List (Nat × List Char)) (hl : List String) (lastIndex : Nat),
      (∀ x ∈ hl, x ∈ (part005Accept text finalTerms ms hl lastIndex).2.1) ∧
      (t ∈ hl → countMarked t (part005Accept text finalTerms ms hl lastIndex).1 = 0) ∧
      countMarked t (part005Accept text finalTerms ms hl lastIndex).1 ≤ 1 ∧
      (1 ≤ countMarked t (part005Accept text finalTerms ms hl lastIndex).1 →
        t ∈ (part005Accept text finalTerms ms hl lastIndex).2.1) := by
  intro ms
  induction ms with
  | nil =>
    intro hl lastIndex
    simp [part005Accept, countMarked]
  | cons p rest ih =>
    obtain ⟨i, u⟩ := p
    intro hl lastIndex
    by_cases hcond : (finalTerms.contains (String.mk u) && !hl.contains (String.mk u)) = true
    · rw [show part005Accept text finalTerms ((i, u) :: rest) hl lastIndex =
          (Seg.plain (sliceStr text lastIndex i) :: Seg.marked (String.mk u) ::
            (part005Accept text finalTerms rest (hl ++ [String.mk u]) (i + u.length)).1,
           (part005Accept text finalTerms rest (hl ++ [String.mk u]) (i + u.length)).2.1,
           (part005Accept text finalTerms rest (hl ++ [String.mk u]) (i + u.length)).2.2.1,
           true) by
        rw [part005Accept, if_pos hcond]]
      obtain ⟨ih1, ih2, ih3, ih4⟩ := ih (hl ++ [String.mk u]) (i + u.length)
      have hunotin : String.mk u ∉ hl := by
        obtain ⟨_, hr⟩ := Bool.and_eq_true_iff.mp hcond
        intro hmem
        have hc : hl.contains (String.mk u) = true := List.elem_eq_true_of_mem hmem
        rw [hc] at hr
        simp at hr
      refine ⟨?_, ?_, ?_, ?_⟩
      · intro x hx
        exact ih1 x (List.mem_append_left _ hx)
      · intro hthl
        rw [countMarked_plain_cons, countMarked_marked_cons]
        have hne : (String.mk u == t) = false := by
          by_cases he : (String.mk u == t) = true
          · exact absurd (by rw [beq_iff_eq.mp he]; exact hthl) hunotin
          · simpa using he
        rw [hne, ih2 (List.mem_append_left _ hthl)]
        simp
      · rw [countMarked_plain_cons, countMarked_marked_cons]
        by_cases he : (String.mk u == t) = true
        · have hteq : String.mk u = t := beq_iff_eq.mp he
          have h0 : countMarked t
              (part005Accept text finalTerms rest (hl ++ [String.mk u]) (i + u.length)).1 = 0 :=
            ih2 (by rw [← hteq]; exact List.mem_append_right _ (by simp))
          rw [he, h0]
          simp
        · have hf : (String.mk u == t) = false := by simpa using he
          rw [hf]
          simpa using ih3
      · rw [countMarked_plain_cons, countMarked_marked_cons]
        by_cases he : (String.mk u == t) = true
        · intro _
          have hteq : String.mk u = t := beq_iff_eq.mp he
          exact ih1 t (by rw [← hteq]; exact List.mem_append_right _ (by simp))
        · have hf : (String.mk u == t) = false := by simpa using he
          rw [hf]
          intro hone
          exact ih4 (by simpa using hone)
    · rw [show part005Accept text finalTerms ((i, u) :: rest) hl lastIndex =
          part005Accept text finalTerms rest hl lastIndex by
        rw [part005Accept, if_neg hcond]]
      exact ih hl lastIndex

/-- The node-level invariants: processing one accepted text node grows the
`highlightedOnce` set, never marks an already-highlighted term, marks each
term at most once and records every marked term. -/
theorem part005Node_inv (finalTerms : List String) (t : String)
    (hl : List String) (text : String) :
    (∀ x ∈ hl, x ∈ (part005Node finalTerms hl text).2) ∧
    (t ∈ hl → countMarked t (part005Node finalTerms hl text).1 = 0) ∧
    countMarked t (part005Node finalTerms hl text).1 ≤ 1 ∧
    (1 ≤ countMarked t (part005Node finalTerms hl text).1 →
      t ∈ (part005Node finalTerms hl text).2) := by
  obtain ⟨a1, a2, a3, a4⟩ := part005Accept_inv text.data finalTerms t
    (scanTerms (finalTerms.map (fun x => x.data)) none text.data 0) hl 0
  unfold part005Node
  by_cases hch : (part005Accept text.data finalTerms
      (scanTerms (finalTerms.map (fun x => x.data)) none text.data 0) hl 0).2.2.2 = true
  · rw [if_pos hch]
    refine ⟨a1, ?_, ?_, ?_⟩
    · intro hthl
      rw [countMarked_append, countMarked_plain_single, a2 hthl]
    · rw [countMarked_append, countMarked_plain_single]
      omega
    · intro hone
      apply a4
      rw [countMarked_append, countMarked_plain_single] at hone
      omega
  · rw [if_neg hch]
    refine ⟨fun x hx => hx, ?_, ?_, ?_⟩
    · intro _
      exact countMarked_plain_single t text
    · rw [countMarked_plain_single]
      omega
    · intro hone
      rw [countMarked_plain_single] at hone
      omega

/-- One pass step preserves the once-per-document invariant: each term is
decorated at most once so far, and once decorated it is in the
`highlightedOnce` set. -/
theorem part005PassStep_inv (finalTerms : List String) (t : String)
    (acc : List (List Seg) × List String) (node : PNode)
    (h : totalMarked t acc.1 = 0 ∨ (totalMarked t acc.1 = 1 ∧ t ∈ acc.2)) :
    totalMarked t (part005PassStep finalTerms acc node).1 = 0 ∨
      (totalMarked t (part005PassStep finalTerms acc node).1 = 1 ∧
        t ∈ (part005PassStep finalTerms acc node).2) := by
  unfold part005PassStep
  by_cases hskip : node.skipAncestor = true
  · rw [if_pos hskip]
    rcases h with h0 | ⟨h1, hmem⟩
    · left
      rw [totalMarked_append, countMarked_plain_single, h0]
    · right
      rw [totalMarked_append, countMarked_plain_single, h1]
      exact ⟨rfl, hmem⟩
  · rw [if_neg hskip]
    simp only []
    obtain ⟨n1, n2, n3, n4⟩ := part005Node_inv finalTerms t acc.2 node.text
    rcases h with h0 | ⟨h1, hmem⟩
    · rcases Nat.eq_zero_or_pos
        (countMarked t (part005Node finalTerms acc.2 node.text).1) with hz | hpos
      · left
        rw [totalMarked_append, h0, hz]
      · right
        constructor
        · rw [totalMarked_append, h0]
          omega
        · exact n4 (by omega)
    · right
      constructor
      · rw [totalMarked_append, h1, n2 hmem]
      · exact n1 t hmem

theorem part005_fold_inv (finalTerms : List String) (t : String) :
    ∀ (nodes : List PNode) (acc : List (List Seg) × List String),
      (totalMarked t acc.1 = 0 ∨ (totalMarked t acc.1 = 1 ∧ t ∈ acc.2)) →
      (totalMarked t (nodes.foldl (part005PassStep finalTerms) acc).1 = 0 ∨
        (totalMarked t (nodes.foldl (part005PassStep finalTerms) acc).1 = 1 ∧
          t ∈ (nodes.foldl (part005PassStep finalTerms) acc).2)) := by
  intro nodes
  induction nodes with
  | nil => intro acc h; exact h
  | cons node rest ih =>
    intro acc h
    simp only [List.foldl_cons]
    exact ih _ (part005PassStep_inv finalTerms t acc node h)

/-- C8 counterexample.  Terms `New York` and `York` over the single plain
text node `New York and York City`: the alternation consumes `New York`
first, so the first occurrence of `York` (offset 4, inside `New York`) is
not decorated and the decoration of `York` lands on its *second* occurrence
(offset 13), contradicting "only the first occurrence of that term in
document order is decorated". -/
theorem once_per_document_counterexample :
    termOccurrences "York" "New York and York City" = [4, 13] ∧
      part005Pass ["New York", "York"] [⟨false, "New York and York City"⟩] =
        [[Seg.plain "", Seg.marked "New York", Seg.plain " and ", Seg.marked "York",
          Seg.plain " City"]] ∧
      markedStarts "York"
          ((part005Pass ["New York", "York"]
            [⟨false, "New York and York City"⟩]).getD 0 []) = [13] ∧
      (4 : Nat) ≠ 13 := by
  decide

/-- C8 amended.  In "highlight each term once per document" mode, every term
is decorated at most once in the whole document (once decorated, all later
occurrences everywhere are skipped and left as plain text), and the
decorated occurrence is the first eligible alternation match — which, as
`once_per_document_counterexample` shows, need not be the first textual
occurrence.  Scenario 1 behaves as specified: first `Paris` and first
`France` decorated, the second `France` left plain. -/
theorem once_per_document_amended (finalTerms : List String)
    (nodes : List PNode) (t : String) :
    totalMarked t (part005Pass finalTerms nodes) ≤ 1 ∧
      part005Pass ["Paris", "France"]
          [⟨false, "Paris is the capital of France. France has many regions."⟩] =
        [[Seg.plain "", Seg.marked "Paris", Seg.plain " is the capital of ",
          Seg.marked "France", Seg.plain ". France has many regions."]] := by
  constructor
  · have h := part005_fold_inv finalTerms t nodes ([], [])
      (by left; simp [totalMarked])
    unfold part005Pass
    rcases h with h | ⟨h, _⟩ <;> omega
  · decide

/- ### C2 -/

mutual
/-- Below an ancestor carrying `data-wiki-highlight`, the rewrite changes
nothing. -/
theorem rewriteNode_inside_hl (ca : String) (wt : List String) :
    ∀ (anc : Ancestors), insideHighlight anc = true →
      ∀ n, rewriteNode ca wt anc n = n
  | anc, h, DomNode.textNode s => by
      unfold rewriteNode
      rw [if_pos (by rw [h, Bool.or_true])]
  | anc, h, DomNode.elem tag attrs children => by
      unfold rewriteNode
      rw [rewriteNodes_inside_hl ca wt ((tag, attrs) :: anc)
        (by
          unfold insideHighlight at h ⊢
          simp only [List.any_cons, Bool.or_eq_true] at h ⊢
          exact Or.inr h)
        children]

/-- List version of `rewriteNode_inside_hl`. -/
theorem rewriteNodes_inside_hl (ca : String) (wt : List String) :
    ∀ (anc : Ancestors), insideHighlight anc = true →
      ∀ ns, rewriteNodes ca wt anc ns = ns
  | _, _, [] => by unfold rewriteNodes; rfl
  | anc, h, n :: ns => by
      unfold rewriteNodes
      rw [rewriteNode_inside_hl ca wt anc h n, rewriteNodes_inside_hl ca wt anc h ns]
end

/-- C2 amended.  Re-running the annotation pass never alters an existing
decoration span, never decorates text anywhere inside an existing
decoration, and never decorates a text node whose *immediate* parent is a
link; but the link check inspects only the immediate parent, so text nested
deeper inside a link through an intermediate element is not protected
(`annotator_decorates_inside_link`), and citation markers are not checked by
this walker at all. -/
theorem annotator_preserves_existing (ca : String) (wt : List String)
    (anc : Ancestors) (n : DomNode)
    (h : insideHighlight anc = true ∨ hasHighlightAttr n = true ∨
        (parentIsLink anc = true ∧ isTextNode n = true)) :
    rewriteNode ca wt anc n = n := by
  rcases h with h | h | ⟨h1, h2⟩
  · exact rewriteNode_inside_hl ca wt anc h n
  · cases n with
    | textNode s => simp [hasHighlightAttr] at h
    | elem tag attrs children =>
      unfold hasHighlightAttr at h
      unfold rewriteNode
      rw [rewriteNodes_inside_hl ca wt ((tag, attrs) :: anc)
        (by
          unfold insideHighlight
          simp only [List.any_cons, Bool.or_eq_true]
          exact Or.inl h)
        children]
  · cases n with
    | textNode s =>
      unfold rewriteNode
      rw [if_pos (by rw [h1, Bool.true_or])]
    | elem tag attrs children => simp [isTextNode] at h2

/-- Witness for `annotator_preserves_existing`: a text node under a
decoration ancestor, a decoration span itself, and a text node whose direct
parent is a link all pass through the rewrite unchanged. -/
theorem annotator_preserves_existing_witness :
    rewriteNode "Paris" ["France"] [("span", ["data-wiki-highlight"])]
        (DomNode.textNode "France") = DomNode.textNode "France" ∧
      rewriteNode "Paris" ["France"] []
          (DomNode.elem "span" ["data-wiki-highlight"] [DomNode.textNode "France"]) =
        DomNode.elem "span" ["data-wiki-highlight"] [DomNode.textNode "France"] ∧
      rewriteNode "Paris" ["France"] [("A", [])] (DomNode.textNode "France") =
        DomNode.textNode "France" := by
  refine ⟨?_, ?_, ?_⟩
  · exact annotator_preserves_existing "Paris" ["France"] _ _ (Or.inl (by decide))
  · exact annotator_preserves_existing "Paris" ["France"] _ _
      (Or.inr (Or.inl (by decide)))
  · exact annotator_preserves_existing "Paris" ["France"] _ _
      (Or.inr (Or.inr ⟨by decide, by decide⟩))

/-- C2 counterexample.  The tree `<a><b>France</b></a>` holds no decoration;
running the annotator with verified term `France` decorates the text inside
the existing link, because the walker checks only the immediate parent
element's tag: a fresh `data-wiki-highlight` span appears inside the
link. -/
theorem annotator_decorates_inside_link :
    containsHighlight linkTree = false ∧
      rewriteNode "Paris" ["France"] [] linkTree =
        DomNode.elem "A" [] [DomNode.elem "B" []
          [DomNode.elem "span" []
            [DomNode.elem "span" ["data-wiki-highlight"] [DomNode.textNode "France"]]]] ∧
      containsHighlight (rewriteNode "Paris" ["France"] [] linkTree) = true := by
  exact ⟨rfl, rfl, rfl⟩
